/-
Verification of the neural-network architecture module of pinns-torch
(src/pinnstorch/models/net/neural_net.py) against its specification.

The Python module defines three architectures: FCN (fully connected stack
with bounds normalization and a discrete/continuous mode), NetHFM (weight
normalized stack with mean/std standardization and a swish-like activation),
and ParallelNet (two FCN-style branches, the second post-processed with an
exponential).  We embed the module shallowly: tensors are lists of rows over
a field, torch operations that can raise shape errors return Option, and the
random parameter initializations (xavier_uniform_, normal) are taken as
explicit function arguments, since only their shapes are determined by the
code.  The real-valued library activations (sin, tanh, sigmoid) and the
column norm are likewise abstract function parameters wherever the claims do
not depend on their values; torch.exp is instantiated with Real.exp where
positivity matters.
-/
import Mathlib

/-- A 2-D torch tensor, stored as its list of rows. -/
abbrev Tensor (α : Type) := List (List α)

/-- The activation nonlinearities selectable in the Python module:
the Sin module, nn.Sigmoid, and nn.Tanh. -/
inductive ActKind where
  | sin : ActKind
  | sigmoid : ActKind
  | tanh : ActKind
deriving DecidableEq, Repr

/-- A module of an nn.Sequential stack: either an affine nn.Linear layer
(with its in/out features and its weight matrix and bias, given as functions
since nn.Linear stores them densely) or an activation module. -/
inductive NetModule (α : Type) where
  | linear (inF outF : ℕ) (w : ℕ → ℕ → α) (b : ℕ → α)
  | act (k : ActKind)

/-- Whether a module is an affine nn.Linear layer. -/
def isLinearB {α : Type} : NetModule α → Bool
  | .linear _ _ _ _ => true
  | .act _ => false

/-- Whether a module is an activation. -/
def isActB {α : Type} : NetModule α → Bool
  | .linear _ _ _ _ => false
  | .act _ => true

/-- The list of activation kinds occurring in a stack, in order. -/
def acts {α : Type} : List (NetModule α) → List ActKind
  | [] => []
  | .linear _ _ _ _ :: ms => acts ms
  | .act k :: ms => k :: acts ms

/-- Every affine layer that is not the final module of the stack is
immediately followed by an activation module. -/
def actAfterEachLinear {α : Type} : List (NetModule α) → Bool
  | [] => true
  | [_] => true
  | m :: m2 :: ms => (!(isLinearB m) || isActB m2) && actAfterEachLinear (m2 :: ms)

/-- The final module of the stack is an affine layer. -/
def lastIsLinearB {α : Type} (net : List (NetModule α)) : Bool :=
  match net.getLast? with
  | some m => isLinearB m
  | none => false

/-- Activation selection of FCN.initalize_net: "sin" gives the Sin module,
anything else falls through to nn.Tanh. -/
def fcnSelect (act_function : String) : ActKind :=
  if act_function = "sin" then ActKind.sin else ActKind.tanh

/-- Activation selection of ParallelNet.initialize_net: "sin" gives Sin,
"sigmoid" gives nn.Sigmoid, anything else falls through to nn.Tanh. -/
def parSelect (act_function : String) : ActKind :=
  if act_function = "sin" then ActKind.sin
  else if act_function = "sigmoid" then ActKind.sigmoid
  else ActKind.tanh

/-- A supply of layer parameters: the k-th affine layer created receives
weight matrix (init k).1 and bias (init k).2.  This stands for the random
draws of nn.Linear construction and nn.init.xavier_uniform_. -/
abbrev Init (α : Type) := ℕ → (ℕ → ℕ → α) × (ℕ → α)

/-- The body of the construction loop
`for i in range(1, len(layers) - 2)`: one nn.Linear(layers[i], layers[i+1])
followed by one activation module per index. -/
def hiddenPart {α : Type} (sel : ActKind) (layers : List ℕ) (init : Init α) :
    List ℕ → List (NetModule α)
  | [] => []
  | i :: is =>
      NetModule.linear (layers.getD i 0) (layers.getD (i + 1) 0) (init i).1 (init i).2
      :: NetModule.act sel :: hiddenPart sel layers init is

/-- The nn.Sequential stack built by FCN.initalize_net and
ParallelNet.initialize_net: an input layer nn.Linear(layers[0], layers[1])
followed by an activation, the hidden loop over range(1, len(layers)-2),
and a final output layer nn.Linear(layers[-2], layers[-1]) with no
activation after it.  The init index of the output layer is its creation
order, 1 + (len(layers) - 3). -/
def sequentialStack {α : Type} (sel : ActKind) (layers : List ℕ) (init : Init α) :
    List (NetModule α) :=
  NetModule.linear (layers.getD 0 0) (layers.getD 1 0) (init 0).1 (init 0).2
  :: NetModule.act sel
  :: (hiddenPart sel layers init (List.range' 1 (layers.length - 3))
      ++ [NetModule.linear (layers.getD (layers.length - 2) 0)
            (layers.getD (layers.length - 1) 0)
            (init (layers.length - 3 + 1)).1 (init (layers.length - 3 + 1)).2])

/-- FCN.initalize_net (the source spells it without the second i):
select Sin for "sin" and nn.Tanh otherwise, and build the stack. -/
def FCN.initalize_net {α : Type} (layers : List ℕ) (act_function : String)
    (init : Init α) : List (NetModule α) :=
  sequentialStack (fcnSelect act_function) layers init

/-- ParallelNet.initialize_net: same stack, with nn.Sigmoid also selectable. -/
def ParallelNet.initialize_net {α : Type} (layers : List ℕ) (act_function : String)
    (init : Init α) : List (NetModule α) :=
  sequentialStack (parSelect act_function) layers init

/-- torch.cat((a, b), 1): requires the two tensors to agree in dim 0
(same number of rows), then concatenates rows pointwise. -/
def cat2 {α : Type} (a b : Tensor α) : Option (Tensor α) :=
  if a.length = b.length then some (List.zipWith (· ++ ·) a b) else none

/-- Rowwise append of three equal-length tensors. -/
def rowsAppend3 {α : Type} : Tensor α → Tensor α → Tensor α → Tensor α
  | r :: rs, s :: ss, t :: ts => (r ++ s ++ t) :: rowsAppend3 rs ss ts
  | _, _, _ => []

/-- Rowwise append of four equal-length tensors. -/
def rowsAppend4 {α : Type} : Tensor α → Tensor α → Tensor α → Tensor α → Tensor α
  | r :: rs, s :: ss, t :: ts, u :: us => (r ++ s ++ t ++ u) :: rowsAppend4 rs ss ts us
  | _, _, _, _ => []

/-- torch.cat((a, b, c), 1). -/
def cat3 {α : Type} (a b c : Tensor α) : Option (Tensor α) :=
  if a.length = b.length ∧ a.length = c.length then some (rowsAppend3 a b c) else none

/-- torch.cat((a, b, c, d), 1). -/
def cat4 {α : Type} (a b c d : Tensor α) : Option (Tensor α) :=
  if a.length = b.length ∧ a.length = c.length ∧ a.length = d.length then
    some (rowsAppend4 a b c d)
  else none

/-- Pointwise 2*(v - l)/(u - l) - 1 of a row against the bound vectors. -/
def normRow {α : Type} [Field α] : List α → List α → List α → List α
  | l :: ls, u :: us, v :: vs => (2 * (v - l) / (u - l) - 1) :: normRow ls us vs
  | _, _, _ => []

/-- The bounds rescaling z = 2.0 * (z - lb) / (ub - lb) - 1.0 with vector
bounds: broadcasting requires every row to have the width of lb and ub. -/
def normalizeBounds {α : Type} [Field α] (lb ub : List α) (t : Tensor α) :
    Option (Tensor α) :=
  if (∀ r ∈ t, r.length = lb.length) ∧ lb.length = ub.length then
    some (t.map fun r => normRow lb ub r)
  else none

/-- The same rescaling against the scalar bounds lb[0] and ub[0], which
broadcast over every element regardless of row width. -/
def normalizeScalar {α : Type} [Field α] (l0 u0 : α) (t : Tensor α) : Tensor α :=
  t.map fun r => r.map fun v => 2 * (v - l0) / (u0 - l0) - 1

/-- Elementwise application of a scalar function to a tensor. -/
def tmap {α : Type} (f : α → α) (t : Tensor α) : Tensor α :=
  t.map fun r => r.map f

/-- Run one module of an nn.Sequential stack.  An affine layer computes
x @ W.T + b and requires every input row to have inF entries; an activation
module applies the interpretation I of its nonlinearity elementwise. -/
def applyModule {α : Type} [Field α] (I : ActKind → α → α) (m : NetModule α)
    (t : Tensor α) : Option (Tensor α) :=
  match m with
  | .linear inF outF w b =>
      if ∀ r ∈ t, r.length = inF then
        some (t.map fun r =>
          (List.range outF).map fun j =>
            b j + ((List.range inF).map fun k => r.getD k 0 * w j k).sum)
      else none
  | .act k => some (tmap (I k) t)

/-- Run an nn.Sequential stack left to right. -/
def applyNet {α : Type} [Field α] (I : ActKind → α → α) :
    List (NetModule α) → Tensor α → Option (Tensor α)
  | [], t => some t
  | m :: ms, t => (applyModule I m t).bind fun t2 => applyNet I ms t2

/-- The slice z[:, i : i + 1].  Like the Python slice it clamps: a column
index at or beyond the row width produces an empty row, never an error. -/
def colSlice {α : Type} (t : Tensor α) (i : ℕ) : Tensor α :=
  t.map fun r => (r.drop i).take 1

/-- Whether an association list already holds a key. -/
def hasKey {α : Type} (d : List (String × α)) (k : String) : Prop :=
  ∃ p ∈ d, p.1 = k

instance {α : Type} (d : List (String × α)) (k : String) :
    Decidable (hasKey d k) :=
  inferInstanceAs (Decidable (∃ p ∈ d, p.1 = k))

/-- One assignment d[k] = v of a Python dict: an existing key keeps its
position and gets the new value, a new key is appended at the end. -/
def dictUpsert {α : Type} (d : List (String × α)) (k : String) (v : α) :
    List (String × α) :=
  if hasKey d k then d.map fun p => if p.1 = k then (k, v) else p
  else d ++ [(k, v)]

/-- The Python dict access d[name]: the value of the entry holding the key. -/
def dictLookup {α : Type} (n : String) : List (String × α) → Option α
  | [] => none
  | p :: ds => if p.1 = n then some p.2 else dictLookup n ds

/-- The dict comprehension loop: insert f i under the i-th name,
left to right. -/
def buildDictAux {α : Type} (f : ℕ → α) :
    List (String × α) → ℕ → List String → List (String × α)
  | d, _, [] => d
  | d, i, n :: ns => buildDictAux f (dictUpsert d n (f i)) (i + 1) ns

/-- The Python dict comprehension over enumerate(output_names):
later occurrences of a repeated name overwrite earlier ones. -/
def buildDict {α : Type} (names : List String) (f : ℕ → α) : List (String × α) :=
  buildDictAux f [] 0 names

/-- The index of the last occurrence of a name in a list (0 if absent). -/
def lastOcc : List String → String → ℕ
  | [], _ => 0
  | _ :: ms, n => if n ∈ ms then lastOcc ms n + 1 else 0

/-- The FCN module: an nn.Sequential stack, the lb and ub bound buffers,
the output names and the discrete flag. -/
structure FCN (α : Type) where
  model : List (NetModule α)
  lb : List α
  ub : List α
  output_names : List String
  discrete : Bool

/-- FCN.__init__: build the stack from the layer widths and store the
configuration. -/
def mkFCN {α : Type} (layers : List ℕ) (lb ub : List α) (output_names : List String)
    (act_function : String) (discrete : Bool) (init : Init α) : FCN α :=
  ⟨FCN.initalize_net layers act_function init, lb, ub, output_names, discrete⟩

/-- Input composition of FCN.forward in discrete mode: two or three spatial
tensors are concatenated, otherwise spatial[0] is used alone (an empty list
raises an IndexError).  The time tensor is never used. -/
def composeDiscrete {α : Type} (spatial : List (Tensor α)) : Option (Tensor α) :=
  match spatial with
  | [x, y] => cat2 x y
  | [x, y, z] => cat3 x y z
  | [] => none
  | x :: _ => some x

/-- Input composition of FCN.forward in continuous mode (also used by
NetHFM.forward and for branch 1 of ParallelNet.forward): the time tensor is
appended as the last column; a spatial arity other than 1, 2, 3 fails the
tuple unpacking. -/
def composeContinuous {α : Type} (spatial : List (Tensor α)) (time : Tensor α) :
    Option (Tensor α) :=
  match spatial with
  | [x] => cat2 x time
  | [x, y] => cat3 x y time
  | [x, y, z] => cat4 x y z time
  | _ => none

/-- FCN.forward.  Discrete mode: compose the spatial tensors without time,
rescale with the bounds minus their final entry, run the stack, and map
every output name to the entire final tensor.  Continuous mode: append time,
rescale with the full bounds, run the stack, and map name i to column
slice i. -/
def FCN.forward {α : Type} [Field α] (I : ActKind → α → α) (m : FCN α)
    (spatial : List (Tensor α)) (time : Tensor α) :
    Option (List (String × Tensor α)) :=
  if m.discrete then
    (composeDiscrete spatial).bind fun z0 =>
    (normalizeBounds m.lb.dropLast m.ub.dropLast z0).bind fun z1 =>
    (applyNet I m.model z1).bind fun z2 =>
    some (buildDict m.output_names fun _ => z2)
  else
    (composeContinuous spatial time).bind fun z0 =>
    (normalizeBounds m.lb m.ub z0).bind fun z1 =>
    (applyNet I m.model z1).bind fun z2 =>
    some (buildDict m.output_names fun i => colSlice z2 i)

/-- The NetHFM module: the stored number of nodes len(layers), the X_mean
and X_std buffers, the per-layer weight matrices (stored as their list of
rows), biases and gamma scales, and the output names. -/
structure NetHFM (α : Type) where
  num_layers : ℕ
  X_mean : List α
  X_std : List α
  weights : List (List (List α))
  biases : List (List α)
  gammas : List (List α)
  output_names : List String

/-- A rows-by-cols matrix of drawn values, as its list of rows. -/
def mkMatrix {α : Type} (rows cols : ℕ) (draw : ℕ → ℕ → α) : List (List α) :=
  (List.range rows).map fun r => (List.range cols).map fun c => draw r c

/-- NetHFM.__init__ together with NetHFM.initalize_net: num_layers is
len(layers); for each i in range(num_layers - 1) the weight W_i is a random
normal [layers[i], layers[i+1]] matrix (draws supplied by winit), the bias
is a zero row of width layers[i+1] and the gamma scale a ones row of the
same width. -/
def mkNetHFM {α : Type} [Field α] (mean std : List α) (layers : List ℕ)
    (output_names : List String) (winit : ℕ → ℕ → ℕ → α) : NetHFM α :=
  { num_layers := layers.length
    X_mean := mean
    X_std := std
    weights := (List.range (layers.length - 1)).map fun i =>
      mkMatrix (layers.getD i 0) (layers.getD (i + 1) 0) (winit i)
    biases := (List.range (layers.length - 1)).map fun i =>
      List.replicate (layers.getD (i + 1) 0) 0
    gammas := (List.range (layers.length - 1)).map fun i =>
      List.replicate (layers.getD (i + 1) 0) 1
    output_names := output_names }

/-- A broadcast row operation t op v: every row of t is combined pointwise
with the vector v, which requires the row widths to equal the width of v. -/
def rowOp2 {α : Type} (op : α → α → α) (v : List α) (t : Tensor α) :
    Option (Tensor α) :=
  if ∀ r ∈ t, r.length = v.length then
    some (t.map fun r => List.zipWith op r v)
  else none

/-- V = W / torch.norm(W, dim=0): every column of W (the matrix is stored
as rows) is divided by its column norm, computed by the abstract norm
function norm2. -/
def colNormalize {α : Type} [Field α] (norm2 : List α → α) (w : List (List α)) :
    List (List α) :=
  let width := (w.headD []).length
  let ns := (List.range width).map fun j => norm2 (w.map fun r => r.getD j 0)
  w.map fun r => List.zipWith (fun x nj => x / nj) r ns

/-- torch.matmul(H, V) for H [n, d] and V [d, w]: requires every row of H
to have d = len(V) entries. -/
def matmulT {α : Type} [Field α] (h : Tensor α) (v : List (List α)) :
    Option (Tensor α) :=
  if ∀ r ∈ h, r.length = v.length then
    some (h.map fun r =>
      (List.range (v.headD []).length).map fun j =>
        ((List.range v.length).map fun k => r.getD k 0 * (v.getD k []).getD j 0).sum)
  else none

/-- H = g * H + b with the row vectors g and b broadcast over the rows of H. -/
def affineGB {α : Type} [Field α] (g b : List α) (h : Tensor α) :
    Option (Tensor α) :=
  if (∀ r ∈ h, r.length = g.length) ∧ g.length = b.length then
    some (h.map fun r => rowGB g b r)
  else none
where
  /-- Pointwise g * h + b over one row. -/
  rowGB : List α → List α → List α → List α
    | gj :: gs, bj :: bs, x :: xs => (gj * x + bj) :: rowGB gs bs xs
    | _, _, _ => []

/-- The swish-like activation H * sigmoid(H), applied elementwise with the
abstract sigmoid function. -/
def swishT {α : Type} [Field α] (sigmoid : α → α) (t : Tensor α) : Tensor α :=
  t.map fun r => r.map fun x => x * sigmoid x

/-- Python zip of three lists (truncating to the shortest). -/
def zip3 {α β γ : Type} : List α → List β → List γ → List (α × β × γ)
  | a :: as, b :: bs, c :: cs => (a, b, c) :: zip3 as bs cs
  | _, _, _ => []

/-- One affine step of NetHFM.forward: weight-normalize W into V,
H = H @ V, then H = g * H + b. -/
def hfmAffine {α : Type} [Field α] (norm2 : List α → α)
    (wbg : List (List α) × List α × List α) (h : Tensor α) : Option (Tensor α) :=
  (matmulT h (colNormalize norm2 wbg.1)).bind fun h2 => affineGB wbg.2.2 wbg.2.1 h2

/-- The loop of NetHFM.forward over enumerate(zip(weights, biases, gammas)):
each triple applies its affine step, and the swish-like activation is applied
exactly when the running index satisfies i < num_layers - 2. -/
def hfmLoop {α : Type} [Field α] (sigmoid : α → α) (norm2 : List α → α)
    (numLayers : ℕ) :
    ℕ → List (List (List α) × List α × List α) → Tensor α → Option (Tensor α)
  | _, [], h => some h
  | i, wbg :: rest, h =>
      (hfmAffine norm2 wbg h).bind fun h2 =>
        hfmLoop sigmoid norm2 numLayers (i + 1) rest
          (if i < numLayers - 2 then swishT sigmoid h2 else h2)

/-- NetHFM.forward: compose the inputs with time (continuous rule),
standardize via (H - mean) / std, run the weight-normalized loop, and slice
column i for the i-th output name. -/
def NetHFM.forward {α : Type} [Field α] (sigmoid : α → α) (norm2 : List α → α)
    (m : NetHFM α) (spatial : List (Tensor α)) (time : Tensor α) :
    Option (List (String × Tensor α)) :=
  (composeContinuous spatial time).bind fun h0 =>
  (rowOp2 (fun a b => a - b) m.X_mean h0).bind fun h1 =>
  (rowOp2 (fun a b => a / b) m.X_std h1).bind fun h2 =>
  (hfmLoop sigmoid norm2 m.num_layers 0 (zip3 m.weights m.biases m.gammas) h2).bind
    fun hf => some (buildDict m.output_names fun i => colSlice hf i)

/-- Layer recursion following the words of the specification: every layer
applies the weight-normalized affine step, and the swish-like activation is
applied after every layer except the final one, so the last affine transform
is linear.  NetHFM.forward is proved to implement this recursion. -/
def hfmSpecLoop {α : Type} [Field α] (sigmoid : α → α) (norm2 : List α → α) :
    List (List (List α) × List α × List α) → Tensor α → Option (Tensor α)
  | [], h => some h
  | wbg :: rest, h =>
      (hfmAffine norm2 wbg h).bind fun h2 =>
        if rest.isEmpty then some h2
        else hfmSpecLoop sigmoid norm2 rest (swishT sigmoid h2)

/-- The ParallelNet module: two independent stacks sharing one pair of
bound buffers, and the output names. -/
structure ParallelNet (α : Type) where
  model1 : List (NetModule α)
  model2 : List (NetModule α)
  lb : List α
  ub : List α
  output_names : List String

/-- ParallelNet.__init__. -/
def mkParallelNet {α : Type} (layers1 layers2 : List ℕ) (lb ub : List α)
    (output_names : List String) (act_function1 act_function2 : String)
    (init1 init2 : Init α) : ParallelNet α :=
  ⟨ParallelNet.initialize_net layers1 act_function1 init1,
   ParallelNet.initialize_net layers2 act_function2 init2,
   lb, ub, output_names⟩

/-- ParallelNet.forward: z1 is the spatial tensors with time appended,
z2 the spatial tensors alone; z1 is rescaled with the full bounds and z2
with the scalar bounds lb[0], ub[0] (indexing an empty bounds buffer
raises); branch 2's output is exponentiated, the branch outputs are
concatenated and sliced per output name. -/
def ParallelNet.forward {α : Type} [Field α] (I : ActKind → α → α) (expF : α → α)
    (m : ParallelNet α) (spatial : List (Tensor α)) (time : Tensor α) :
    Option (List (String × Tensor α)) :=
  (match spatial with
   | [x] => (cat2 x time).map fun z1 => (z1, x)
   | [x, y] => (cat3 x y time).bind fun z1 => (cat2 x y).map fun z2 => (z1, z2)
   | [x, y, z] => (cat4 x y z time).bind fun z1 => (cat3 x y z).map fun z2 => (z1, z2)
   | _ => none).bind fun p =>
  (normalizeBounds m.lb m.ub p.1).bind fun z1 =>
  match m.lb.head?, m.ub.head? with
  | some l0, some u0 =>
      (applyNet I m.model1 z1).bind fun o1 =>
      (applyNet I m.model2 (normalizeScalar l0 u0 p.2)).bind fun o2 =>
      (cat2 o1 (tmap expF o2)).bind fun z =>
      some (buildDict m.output_names fun i => colSlice z i)
  | _, _ => none

/-- Left fold of torch.cat over a nonempty list of tensors. -/
def catAllGo {α : Type} (acc : Tensor α) : List (Tensor α) → Option (Tensor α)
  | [] => some acc
  | u :: us => (cat2 acc u).bind fun w => catAllGo w us

/-- Column concatenation of all tensors of a list, as the specification
words it ("the concatenation of the spatial tensors"). -/
def catAll {α : Type} : List (Tensor α) → Option (Tensor α)
  | [] => none
  | t :: ts => catAllGo t ts

/-- ParallelNet forward pass following the words of the specification:
branch 1 takes the FCN continuous composition (spatial tensors plus time)
rescaled with the full bounds; branch 2 takes the concatenation of the
spatial tensors only, rescaled with the scalar bounds at index 0 regardless
of spatial arity; branch 2 is exponentiated and the outputs concatenated.
ParallelNet.forward is proved extensionally equal to this definition. -/
def ParallelNet.forwardSpec {α : Type} [Field α] (I : ActKind → α → α)
    (expF : α → α) (m : ParallelNet α) (spatial : List (Tensor α))
    (time : Tensor α) : Option (List (String × Tensor α)) :=
  (composeContinuous spatial time).bind fun c1 =>
  (catAll spatial).bind fun c2 =>
  (normalizeBounds m.lb m.ub c1).bind fun z1 =>
  match m.lb.head?, m.ub.head? with
  | some l0, some u0 =>
      (applyNet I m.model1 z1).bind fun o1 =>
      (applyNet I m.model2 (normalizeScalar l0 u0 c2)).bind fun o2 =>
      (cat2 o1 (tmap expF o2)).bind fun z =>
      some (buildDict m.output_names fun i => colSlice z i)
  | _, _ => none

/-- A zero parameter supply over ℚ, used for concrete instances. -/
def czInit : Init ℚ := fun _ => (fun _ _ => 0, fun _ => 0)

/-- A zero parameter supply over ℝ, used for concrete instances. -/
def czInitR : Init ℝ := fun _ => (fun _ _ => 0, fun _ => 0)

/-- The empty string as a default name. -/
def noName : String := ""

/-- An alternating stack: the listed modules each followed by one activation,
then the final module. -/
def altStack {α : Type} (a : ActKind) (fin : NetModule α) :
    List (NetModule α) → List (NetModule α)
  | [] => [fin]
  | l :: ls => l :: NetModule.act a :: altStack a fin ls

theorem hiddenPart_append_fin {α : Type} (sel : ActKind) (layers : List ℕ)
    (init : Init α) (fin : NetModule α) (is : List ℕ) :
    hiddenPart sel layers init is ++ [fin] =
      altStack sel fin (is.map fun i =>
        NetModule.linear (layers.getD i 0) (layers.getD (i + 1) 0)
          (init i).1 (init i).2) := by
  induction is with
  | nil => simp [hiddenPart, altStack]
  | cons i is ih => simp [hiddenPart, altStack, ih]

/-- The built nn.Sequential stack is the alternating stack over the input
layer and the hidden layers, finished by the output layer. -/
theorem sequentialStack_eq_altStack {α : Type} (sel : ActKind) (layers : List ℕ)
    (init : Init α) :
    sequentialStack sel layers init =
      altStack sel
        (NetModule.linear (layers.getD (layers.length - 2) 0)
          (layers.getD (layers.length - 1) 0)
          (init (layers.length - 3 + 1)).1 (init (layers.length - 3 + 1)).2)
        (NetModule.linear (layers.getD 0 0) (layers.getD 1 0) (init 0).1 (init 0).2
          :: (List.range' 1 (layers.length - 3)).map fun i =>
              NetModule.linear (layers.getD i 0) (layers.getD (i + 1) 0)
                (init i).1 (init i).2) := by
  simp [sequentialStack, altStack, hiddenPart_append_fin]

theorem countP_isLinearB_altStack {α : Type} (a : ActKind) (p q : ℕ)
    (w : ℕ → ℕ → α) (bf : ℕ → α)
    (ls : List (NetModule α)) (hls : ∀ l ∈ ls, isLinearB l = true) :
    (altStack a (NetModule.linear p q w bf) ls).countP isLinearB
      = ls.length + 1 := by
  induction ls with
  | nil => simp [altStack, List.countP_cons, isLinearB]
  | cons l ls ih =>
      have hl := hls l (List.mem_cons_self l ls)
      have ih2 := ih fun x hx => hls x (List.mem_cons_of_mem l hx)
      cases l with
      | linear a b c d =>
          simp [altStack, List.countP_cons, isLinearB, isActB, ih2]
      | act k => simp [isLinearB] at hl

theorem countP_isActB_altStack {α : Type} (a : ActKind) (p q : ℕ)
    (w : ℕ → ℕ → α) (bf : ℕ → α)
    (ls : List (NetModule α)) (hls : ∀ l ∈ ls, isLinearB l = true) :
    (altStack a (NetModule.linear p q w bf) ls).countP isActB = ls.length := by
  induction ls with
  | nil => simp [altStack, List.countP_cons, isActB]
  | cons l ls ih =>
      have hl := hls l (List.mem_cons_self l ls)
      have ih2 := ih fun x hx => hls x (List.mem_cons_of_mem l hx)
      cases l with
      | linear a b c d => simp [altStack, List.countP_cons, isActB, ih2]
      | act k => simp [isLinearB] at hl

theorem altStack_ne_nil {α : Type} (a : ActKind) (fin : NetModule α)
    (ls : List (NetModule α)) : altStack a fin ls ≠ [] := by
  cases ls <;> simp [altStack]

theorem actAfterEachLinear_altStack {α : Type} (a : ActKind) (fin : NetModule α)
    (ls : List (NetModule α)) :
    actAfterEachLinear (altStack a fin ls) = true := by
  induction ls with
  | nil => simp [altStack, actAfterEachLinear]
  | cons l ls ih =>
      obtain ⟨m, ms, hm⟩ : ∃ m ms, altStack a fin ls = m :: ms := by
        cases h : altStack a fin ls with
        | nil => exact absurd h (altStack_ne_nil a fin ls)
        | cons m ms => exact ⟨m, ms, rfl⟩
      simp only [altStack]
      rw [hm] at ih ⊢
      simp [actAfterEachLinear, isActB, isLinearB, ih]

theorem lastIsLinearB_altStack {α : Type} (a : ActKind) (p q : ℕ)
    (w : ℕ → ℕ → α) (bf : ℕ → α) (ls : List (NetModule α)) :
    lastIsLinearB (altStack a (NetModule.linear p q w bf) ls) = true := by
  induction ls with
  | nil => simp [altStack, lastIsLinearB, isLinearB]
  | cons l ls ih =>
      obtain ⟨m, ms, hm⟩ : ∃ m ms,
          altStack a (NetModule.linear p q w bf) ls = m :: ms := by
        cases h : altStack a (NetModule.linear p q w bf) ls with
        | nil => exact absurd h (altStack_ne_nil a _ ls)
        | cons m ms => exact ⟨m, ms, rfl⟩
      simp only [altStack]
      rw [lastIsLinearB] at ih ⊢
      rw [hm] at ih ⊢
      simpa [List.getLast?_cons_cons] using ih

theorem acts_altStack {α : Type} (a : ActKind) (p q : ℕ)
    (w : ℕ → ℕ → α) (bf : ℕ → α)
    (ls : List (NetModule α)) (hls : ∀ l ∈ ls, isLinearB l = true) :
    acts (altStack a (NetModule.linear p q w bf) ls)
      = List.replicate ls.length a := by
  induction ls with
  | nil => simp [altStack, acts]
  | cons l ls ih =>
      have hl := hls l (List.mem_cons_self l ls)
      have ih2 := ih fun x hx => hls x (List.mem_cons_of_mem l hx)
      cases l with
      | linear a b c d => simp [altStack, acts, ih2, List.replicate_succ]
      | act k => simp [isLinearB] at hl

theorem stack_lins_linear {α : Type} (layers : List ℕ)
    (init : Init α) :
    ∀ l ∈ (NetModule.linear (layers.getD 0 0) (layers.getD 1 0)
            (init 0).1 (init 0).2
          :: (List.range' 1 (layers.length - 3)).map fun i =>
              NetModule.linear (layers.getD i 0) (layers.getD (i + 1) 0)
                (init i).1 (init i).2),
      isLinearB l = true := by
  intro l hl
  rcases List.mem_cons.mp hl with h | h
  · subst h; rfl
  · obtain ⟨i, _, rfl⟩ := List.mem_map.mp h
    rfl

theorem stack_counts {α : Type} (sel : ActKind) (layers : List ℕ) (init : Init α) :
    (sequentialStack sel layers init).countP isLinearB = layers.length - 3 + 2
    ∧ (sequentialStack sel layers init).countP isActB = layers.length - 3 + 1
    ∧ actAfterEachLinear (sequentialStack sel layers init) = true
    ∧ lastIsLinearB (sequentialStack sel layers init) = true := by
  rw [sequentialStack_eq_altStack]
  refine ⟨?_, ?_, ?_, ?_⟩
  · rw [countP_isLinearB_altStack _ _ _ _ _ _ (stack_lins_linear layers init)]
    simp
  · rw [countP_isActB_altStack _ _ _ _ _ _ (stack_lins_linear layers init)]
    simp
  · exact actAfterEachLinear_altStack _ _ _
  · exact lastIsLinearB_altStack _ _ _ _ _ _

/-- C1 (amended): FCN.initalize_net and ParallelNet.initialize_net build a
stack whose number of affine layers is len(layers) - 1 for every spec of
length at least 3 but 2 for a spec of length 2 (equivalently
max 2 (len - 1) in general), whose number of activations is
max 1 (len - 2), in which every affine layer other than the final one is
immediately followed by an activation, and whose final module is the
affine output layer (so the output layer has no activation after it). -/
theorem fcn_parallel_stack_structure (layers : List ℕ) (a1 a2 : String)
    (i1 i2 : Init ℚ) :
    ((FCN.initalize_net layers a1 i1).countP isLinearB = max 2 (layers.length - 1)
      ∧ (FCN.initalize_net layers a1 i1).countP isActB = max 1 (layers.length - 2)
      ∧ actAfterEachLinear (FCN.initalize_net layers a1 i1) = true
      ∧ lastIsLinearB (FCN.initalize_net layers a1 i1) = true)
    ∧ ((ParallelNet.initialize_net layers a2 i2).countP isLinearB
          = max 2 (layers.length - 1)
      ∧ (ParallelNet.initialize_net layers a2 i2).countP isActB
          = max 1 (layers.length - 2)
      ∧ actAfterEachLinear (ParallelNet.initialize_net layers a2 i2) = true
      ∧ lastIsLinearB (ParallelNet.initialize_net layers a2 i2) = true) := by
  obtain ⟨c1, c2, c3, c4⟩ := stack_counts (fcnSelect a1) layers i1
  obtain ⟨d1, d2, d3, d4⟩ := stack_counts (parSelect a2) layers i2
  unfold FCN.initalize_net ParallelNet.initialize_net
  refine ⟨⟨?_, ?_, c3, c4⟩, ⟨?_, ?_, d3, d4⟩⟩
  · rw [c1]; omega
  · rw [c2]; omega
  · rw [d1]; omega
  · rw [d2]; omega

/-- C1 (counterexample): for the length-2 layer spec [1, 1] the built stack
holds 2 affine layers (the input layer and the output layer are created
unconditionally), not len(layers) - 1 = 1. -/
theorem fcn_affine_count_refuted_at_length_two :
    ¬ ((FCN.initalize_net [1, 1] ("tanh") czInit).countP isLinearB
        = ([1, 1] : List ℕ).length - 1) := by
  decide

/-- C2 (counterexample): constructing an FCN with act_function = "sigmoid"
yields tanh activations, not sigmoid ones — FCN.initalize_net has no
sigmoid branch, so "sigmoid" falls through to nn.Tanh. -/
theorem fcn_sigmoid_ignored :
    acts (FCN.initalize_net [1, 2, 1] ("sigmoid") czInit) = [ActKind.tanh]
    ∧ ActKind.sigmoid ∉ acts (FCN.initalize_net [1, 2, 1] ("sigmoid") czInit) := by
  constructor
  · decide
  · decide

/-- C2 (amended): "sigmoid" is not a recognized FCN activation — an FCN
constructed with act_function "sigmoid" is identical to one constructed
with "tanh" — while in ParallelNet.initialize_net the identifier "sigmoid"
does select the sigmoid nonlinearity for every activation module. -/
theorem sigmoid_selects_only_in_parallel :
    (∀ (layers : List ℕ) (init : Init ℚ),
        FCN.initalize_net layers ("sigmoid") init
          = FCN.initalize_net layers ("tanh") init)
    ∧ (∀ (layers : List ℕ) (init : Init ℚ),
        (acts (ParallelNet.initialize_net layers ("sigmoid") init)).all
          (fun k => k == ActKind.sigmoid) = true) := by
  constructor
  · intro layers init
    unfold FCN.initalize_net
    have h : fcnSelect ("sigmoid") = fcnSelect ("tanh") := by decide
    rw [h]
  · intro layers init
    unfold ParallelNet.initialize_net
    rw [sequentialStack_eq_altStack]
    rw [acts_altStack _ _ _ _ _ _ (stack_lins_linear layers init)]
    have h : parSelect ("sigmoid") = ActKind.sigmoid := by decide
    rw [h]
    simp [List.all_eq_true]

/-- C6: any activation identifier outside the recognized set — neither
"sin" nor "sigmoid" nor "tanh" — selects the hyperbolic-tangent fallback:
the stacks built by FCN.initalize_net and ParallelNet.initialize_net, and
consequently the forward passes of the constructed FCN and ParallelNet,
coincide with those obtained from act_function = "tanh". -/
theorem unknown_activation_tanh_fallback (s : String)
    (h1 : s ≠ ("sin")) (h2 : s ≠ ("sigmoid")) (_h3 : s ≠ ("tanh")) :
    (∀ (layers : List ℕ) (init : Init ℚ),
        FCN.initalize_net layers s init = FCN.initalize_net layers ("tanh") init)
    ∧ (∀ (layers : List ℕ) (init : Init ℚ),
        ParallelNet.initialize_net layers s init
          = ParallelNet.initialize_net layers ("tanh") init)
    ∧ (∀ (layers : List ℕ) (lb ub : List ℚ) (names : List String) (disc : Bool)
        (init : Init ℚ) (I : ActKind → ℚ → ℚ) (spatial : List (Tensor ℚ))
        (time : Tensor ℚ),
        FCN.forward I (mkFCN layers lb ub names s disc init) spatial time
          = FCN.forward I (mkFCN layers lb ub names ("tanh") disc init)
              spatial time)
    ∧ (∀ (layers1 layers2 : List ℕ) (lb ub : List ℚ) (names : List String)
        (init1 init2 : Init ℚ) (I : ActKind → ℚ → ℚ) (expF : ℚ → ℚ)
        (spatial : List (Tensor ℚ)) (time : Tensor ℚ),
        ParallelNet.forward I expF
            (mkParallelNet layers1 layers2 lb ub names s s init1 init2)
            spatial time
          = ParallelNet.forward I expF
              (mkParallelNet layers1 layers2 lb ub names ("tanh") ("tanh")
                init1 init2) spatial time) := by
  have hf : fcnSelect s = fcnSelect ("tanh") := by
    unfold fcnSelect
    rw [if_neg h1, if_neg (by decide)]
  have hp : parSelect s = parSelect ("tanh") := by
    unfold parSelect
    rw [if_neg h1, if_neg h2, if_neg (by decide), if_neg (by decide)]
  have hfn : ∀ (layers : List ℕ) (init : Init ℚ),
      FCN.initalize_net layers s init = FCN.initalize_net layers ("tanh") init := by
    intro layers init
    unfold FCN.initalize_net
    rw [hf]
  have hpn : ∀ (layers : List ℕ) (init : Init ℚ),
      ParallelNet.initialize_net layers s init
        = ParallelNet.initialize_net layers ("tanh") init := by
    intro layers init
    unfold ParallelNet.initialize_net
    rw [hp]
  refine ⟨hfn, hpn, ?_, ?_⟩
  · intro layers lb ub names disc init I spatial time
    unfold mkFCN
    rw [hfn layers init]
  · intro layers1 layers2 lb ub names init1 init2 I expF spatial time
    unfold mkParallelNet
    rw [hpn layers1 init1, hpn layers2 init2]

/-- C6 (witness): act_function = "bogus" is outside the recognized set and
produces the same stacks and forward behavior as "tanh" on a concrete
configuration. -/
theorem unknown_activation_tanh_fallback_witness :
    FCN.initalize_net [2, 1] ("bogus") czInit
        = FCN.initalize_net [2, 1] ("tanh") czInit
    ∧ ParallelNet.initialize_net [2, 1] ("bogus") czInit
        = ParallelNet.initialize_net [2, 1] ("tanh") czInit
    ∧ FCN.forward (fun _ q => q) (mkFCN [2, 2, 1] [0, 0] [1, 1] [("u")]
          ("bogus") false czInit) [[[0]]] [[0]]
        = FCN.forward (fun _ q => q) (mkFCN [2, 2, 1] [0, 0] [1, 1] [("u")]
          ("tanh") false czInit) [[[0]]] [[0]] := by
  have h := unknown_activation_tanh_fallback ("bogus")
    (by decide) (by decide) (by decide)
  exact ⟨h.1 [2, 1] czInit, h.2.1 [2, 1] czInit,
    h.2.2.1 [2, 2, 1] [0, 0] [1, 1] [("u")] false czInit (fun _ q => q) [[[0]]] [[0]]⟩

theorem normRow_at_lb (lb ub : List ℚ) (hlen : lb.length = ub.length) :
    normRow lb ub lb = List.replicate lb.length (-1) := by
  induction lb generalizing ub with
  | nil => cases ub with
    | nil => simp [normRow]
    | cons u us => simp at hlen
  | cons l ls ih =>
      cases ub with
      | nil => simp at hlen
      | cons u us =>
          simp only [normRow, List.length_cons, List.replicate_succ]
          have hh : (2 * (l - l) / (u - l) - 1 : ℚ) = -1 := by simp
          rw [hh, ih us (by simpa using hlen)]

theorem normRow_at_ub (lb ub : List ℚ) (hlen : lb.length = ub.length)
    (hlt : ∀ p ∈ lb.zip ub, p.1 < p.2) :
    normRow lb ub ub = List.replicate lb.length 1 := by
  induction lb generalizing ub with
  | nil => cases ub with
    | nil => simp [normRow]
    | cons u us => simp at hlen
  | cons l ls ih =>
      cases ub with
      | nil => simp at hlen
      | cons u us =>
          simp only [normRow, List.length_cons, List.replicate_succ]
          have hne : u - l ≠ 0 :=
            sub_ne_zero.mpr (hlt (l, u) (by simp [List.zip_cons_cons])).ne'
          have hh : (2 * (u - l) / (u - l) - 1 : ℚ) = 1 := by
            rw [mul_div_assoc, div_self hne, mul_one]
            norm_num
          rw [hh, ih us (by simpa using hlen)
            (fun p hp => hlt p (by simp [List.zip_cons_cons, hp]))]

/-- C7: whenever the bound vectors have equal width and satisfy
lb[i] < ub[i] elementwise, the rescaling 2*(z - lb)/(ub - lb) - 1 used by
the continuous-mode FCN forward pass and by ParallelNet branch 1 maps the
row equal to lb to -1 in every coordinate and the row equal to ub to +1 in
every coordinate. -/
theorem bounds_rescale_endpoints (lb ub : List ℚ)
    (hlen : lb.length = ub.length)
    (hlt : ∀ p ∈ lb.zip ub, p.1 < p.2) :
    normalizeBounds lb ub [lb] = some [List.replicate lb.length (-1)]
    ∧ normalizeBounds lb ub [ub] = some [List.replicate lb.length 1] := by
  constructor
  · rw [normalizeBounds, if_pos (by exact ⟨by simp, hlen⟩)]
    simp [normRow_at_lb lb ub hlen]
  · rw [normalizeBounds, if_pos (by exact ⟨by simp [hlen], hlen⟩)]
    simp [normRow_at_ub lb ub hlen hlt]

/-- C7 (witness): for lb = [0] and ub = [1] the rescaled row at lb is [-1]
and the rescaled row at ub is [1]. -/
theorem bounds_rescale_endpoints_witness :
    normalizeBounds [(0 : ℚ)] [1] [[0]] = some [List.replicate 1 (-1)]
    ∧ normalizeBounds [(0 : ℚ)] [1] [[1]] = some [List.replicate 1 1] :=
  bounds_rescale_endpoints [0] [1] rfl
    (by intro p hp; simp [List.zip_cons_cons] at hp; rw [hp]; norm_num)

/-- C3 (counterexample): a continuous-mode FCN whose final layer has width
1 but which has 2 output names does not fail: the forward pass returns a
mapping, with the out-of-range second name bound to a zero-width slice.
The Python slice z[:, i : i + 1] clamps instead of raising. -/
theorem fcn_width_mismatch_returns_result :
    FCN.forward (fun _ q => q) (mkFCN [2, 2, 1] [0, 0] [1, 1] [("u"), ("v")]
        ("tanh") false czInit) [[[0]]] [[0]]
      = some [(("u"), [[0]]), (("v"), [[]])] := by
  simp only [FCN.forward, mkFCN, FCN.initalize_net, sequentialStack, hiddenPart,
    fcnSelect, composeContinuous, cat2, normalizeBounds, normRow, applyNet,
    applyModule, tmap, czInit, colSlice, buildDict, buildDictAux, dictUpsert,
    hasKey, List.range']
  norm_num [List.range, List.range.loop, buildDict, buildDictAux, dictUpsert, hasKey]
  norm_num [normRow, List.replicate]
  decide

/-- C3 (amended): in continuous mode a mismatch between the final layer
width and the number of output names is not detected: whenever the
composition, normalization and stack succeed with a final tensor of width
w, the forward pass returns the sliced mapping, and every name whose index
is at least w receives the empty zero-width slice. -/
theorem fcn_excess_names_empty_slices (I : ActKind → ℚ → ℚ) (m : FCN ℚ)
    (spatial : List (Tensor ℚ)) (time : Tensor ℚ) (z0 z1 z2 : Tensor ℚ) (w : ℕ)
    (hd : m.discrete = false)
    (h0 : composeContinuous spatial time = some z0)
    (h1 : normalizeBounds m.lb m.ub z0 = some z1)
    (h2 : applyNet I m.model z1 = some z2)
    (hw : ∀ r ∈ z2, r.length = w) :
    FCN.forward I m spatial time
      = some (buildDict m.output_names fun i => colSlice z2 i)
    ∧ ∀ i, w ≤ i → colSlice z2 i = z2.map fun _ => ([] : List ℚ) := by
  constructor
  · rw [FCN.forward, hd]
    simp [h0, h1, h2]
  · intro i hi
    unfold colSlice
    apply List.map_congr_left
    intro r hr
    rw [List.drop_eq_nil_of_le (by rw [hw r hr]; exact hi), List.take_nil]

/-- C3 (witness): the amended statement applied to the concrete width-1
network with two output names. -/
theorem fcn_excess_names_empty_slices_witness :
    FCN.forward (fun _ q => q) (mkFCN [2, 2, 1] [0, 0] [1, 1] [("u"), ("v")]
        ("tanh") false czInit) [[[0]]] [[0]]
      = some (buildDict [("u"), ("v")] fun i => colSlice [[(0 : ℚ)]] i)
    ∧ ∀ i, 1 ≤ i → colSlice ([[(0 : ℚ)]]) i = [[(0 : ℚ)]].map fun _ => ([] : List ℚ) :=
  fcn_excess_names_empty_slices (fun _ q => q) _ [[[0]]] [[0]] [[0, 0]] [[-1, -1]]
    [[0]] 1
    rfl
    (by simp [composeContinuous, cat2])
    (by norm_num [mkFCN, normalizeBounds, normRow])
    (by norm_num [mkFCN, FCN.initalize_net, sequentialStack, hiddenPart, fcnSelect,
          applyNet, applyModule, tmap, czInit, List.range, List.range.loop])
    (by simp)

theorem dictUpsert_const_values {β : Type} (d : List (String × β)) (k : String)
    (x : β) (hd : ∀ pr ∈ d, pr.2 = x) : ∀ pr ∈ dictUpsert d k x, pr.2 = x := by
  intro pr hpr
  unfold dictUpsert at hpr
  by_cases h : hasKey d k
  · rw [if_pos h] at hpr
    obtain ⟨q, hq, hfq⟩ := List.mem_map.mp hpr
    by_cases hk : q.1 = k
    · rw [if_pos hk] at hfq
      rw [← hfq]
    · rw [if_neg hk] at hfq
      rw [← hfq]
      exact hd q hq
  · rw [if_neg h] at hpr
    rcases List.mem_append.mp hpr with h2 | h2
    · exact hd pr h2
    · rw [List.mem_singleton.mp h2]

theorem buildDictAux_const_values {β : Type} (x : β) :
    ∀ (ns : List String) (d : List (String × β)) (i : ℕ),
      (∀ pr ∈ d, pr.2 = x) →
      ∀ pr ∈ buildDictAux (fun _ => x) d i ns, pr.2 = x := by
  intro ns
  induction ns with
  | nil => intro d i hd pr hpr; exact hd pr hpr
  | cons n ns ih =>
      intro d i hd pr hpr
      exact ih (dictUpsert d n x) (i + 1) (dictUpsert_const_values d n x hd) pr hpr

theorem buildDict_const_values {β : Type} (names : List String) (x : β) :
    ∀ pr ∈ buildDict names (fun _ => x), pr.2 = x :=
  buildDictAux_const_values x names [] 0 (by intro pr hpr; simp at hpr)

/-- C4: in discrete mode, FCN.forward never uses the time tensor (the
result is the same for any two time arguments), normalizes with the bound
buffers minus their final entry (the result is invariant under changing the
appended last bound entries), and binds every output name to the entire
un-sliced final tensor of the stack. -/
theorem fcn_discrete_forward_spec :
    (∀ (net : List (NetModule ℚ)) (lb ub : List ℚ) (names : List String)
        (I : ActKind → ℚ → ℚ) (spatial : List (Tensor ℚ)) (t1 t2 : Tensor ℚ),
        FCN.forward I ⟨net, lb, ub, names, true⟩ spatial t1
          = FCN.forward I ⟨net, lb, ub, names, true⟩ spatial t2)
    ∧ (∀ (net : List (NetModule ℚ)) (lb ub : List ℚ) (c c2 e e2 : ℚ)
        (names : List String) (I : ActKind → ℚ → ℚ) (spatial : List (Tensor ℚ))
        (time : Tensor ℚ),
        FCN.forward I ⟨net, lb ++ [c], ub ++ [e], names, true⟩ spatial time
          = FCN.forward I ⟨net, lb ++ [c2], ub ++ [e2], names, true⟩ spatial time)
    ∧ (∀ (net : List (NetModule ℚ)) (lb ub : List ℚ) (names : List String)
        (I : ActKind → ℚ → ℚ) (spatial : List (Tensor ℚ)) (time : Tensor ℚ)
        (d : List (String × Tensor ℚ)) (n : String) (v : Tensor ℚ),
        FCN.forward I ⟨net, lb, ub, names, true⟩ spatial time = some d →
        (n, v) ∈ d →
        ∃ z0 z1, composeDiscrete spatial = some z0
          ∧ normalizeBounds lb.dropLast ub.dropLast z0 = some z1
          ∧ applyNet I net z1 = some v) := by
  refine ⟨?_, ?_, ?_⟩
  · intro net lb ub names I spatial t1 t2
    simp [FCN.forward]
  · intro net lb ub c c2 e e2 names I spatial time
    simp [FCN.forward, List.dropLast_concat]
  · intro net lb ub names I spatial time d n v hfw hmem
    simp only [FCN.forward, if_pos] at hfw
    rcases Option.bind_eq_some.mp hfw with ⟨z0, h0, hfw2⟩
    rcases Option.bind_eq_some.mp hfw2 with ⟨z1, h1, hfw3⟩
    rcases Option.bind_eq_some.mp hfw3 with ⟨z2, h2, hfw4⟩
    have hd : d = buildDict names fun _ => z2 := by
      injection hfw4 with h
      exact h.symm
    have hv : v = z2 := by
      have := buildDict_const_values names z2 (n, v) (hd ▸ hmem)
      simpa using this
    exact ⟨z0, z1, h0, h1, hv ▸ h2⟩

/-- C4 (witness): the discrete forward pass of a concrete FCN evaluated at
a concrete input; every entry of the returned mapping is the entire final
tensor. -/
theorem fcn_discrete_forward_spec_witness :
    FCN.forward (fun _ (q : ℚ) => q) ⟨[], [0], [1], [("u")], true⟩ [[]] []
        = some [(("u"), ([] : Tensor ℚ))]
    ∧ ∃ z0 z1, composeDiscrete ([[]] : List (Tensor ℚ)) = some z0
        ∧ normalizeBounds ([(0 : ℚ)]).dropLast ([(1 : ℚ)]).dropLast z0 = some z1
        ∧ applyNet (fun _ (q : ℚ) => q) [] z1 = some ([] : Tensor ℚ) := by
  constructor
  · rfl
  · exact fcn_discrete_forward_spec.2.2 [] [0] [1] [("u")] (fun _ q => q) [[]] []
      [(("u"), [])] ("u") [] rfl (by simp)

theorem rowsAppend3_eq (a : Tensor ℚ) :
    ∀ (b c : Tensor ℚ), a.length = b.length → a.length = c.length →
      rowsAppend3 a b c = List.zipWith (· ++ ·) (List.zipWith (· ++ ·) a b) c := by
  induction a with
  | nil => intro b c h1 h2; simp [rowsAppend3]
  | cons r rs ih =>
      intro b c h1 h2
      cases b with
      | nil => simp at h1
      | cons s ss =>
          cases c with
          | nil => simp at h2
          | cons t ts =>
              simp only [rowsAppend3, List.zipWith]
              rw [ih ss ts (by simpa using h1) (by simpa using h2)]

theorem cat3_eq_chain (a b c : Tensor ℚ) :
    cat3 a b c = (cat2 a b).bind fun w => cat2 w c := by
  unfold cat3 cat2
  by_cases h1 : a.length = b.length
  · rw [if_pos h1]
    simp only [Option.some_bind]
    have hlen : (List.zipWith (· ++ ·) a b).length = a.length := by
      rw [List.length_zipWith, h1, Nat.min_self]
    by_cases h2 : a.length = c.length
    · rw [if_pos ⟨h1, h2⟩, if_pos (by rw [hlen]; exact h2)]
      rw [rowsAppend3_eq a b c h1 h2]
    · rw [if_neg (by intro hc; exact h2 hc.2), if_neg (by rw [hlen]; exact h2)]
  · rw [if_neg h1, if_neg (by intro hc; exact h1 hc.1)]
    rfl

theorem rowsAppend4_eq (a : Tensor ℚ) :
    ∀ (b c d : Tensor ℚ), a.length = b.length → a.length = c.length →
      a.length = d.length →
      rowsAppend4 a b c d = List.zipWith (· ++ ·) (rowsAppend3 a b c) d := by
  induction a with
  | nil => intro b c d h1 h2 h3; simp [rowsAppend4, rowsAppend3]
  | cons r rs ih =>
      intro b c d h1 h2 h3
      cases b with
      | nil => simp at h1
      | cons s ss =>
          cases c with
          | nil => simp at h2
          | cons t ts =>
              cases d with
              | nil => simp at h3
              | cons u us =>
                  simp only [rowsAppend4, rowsAppend3, List.zipWith]
                  rw [ih ss ts us (by simpa using h1) (by simpa using h2)
                    (by simpa using h3)]

theorem rowsAppend3_length (a b c : Tensor ℚ) (h1 : a.length = b.length)
    (h2 : a.length = c.length) : (rowsAppend3 a b c).length = a.length := by
  rw [rowsAppend3_eq a b c h1 h2]
  rw [List.length_zipWith, List.length_zipWith, ← h1, ← h2]
  simp

theorem cat4_eq_chain (a b c d : Tensor ℚ) :
    cat4 a b c d = (cat3 a b c).bind fun w => cat2 w d := by
  unfold cat4 cat3 cat2
  by_cases h1 : a.length = b.length
  · by_cases h2 : a.length = c.length
    · have hlen := rowsAppend3_length a b c h1 h2
      by_cases h3 : a.length = d.length
      · rw [if_pos (show _ ∧ _ ∧ _ from ⟨h1, h2, h3⟩), if_pos (show _ ∧ _ from ⟨h1, h2⟩)]
        simp only [Option.some_bind]
        rw [if_pos (by rw [hlen]; exact h3)]
        rw [rowsAppend4_eq a b c d h1 h2 h3]
      · rw [if_neg (by intro hc; exact h3 hc.2.2),
          if_pos (show _ ∧ _ from ⟨h1, h2⟩)]
        simp only [Option.some_bind]
        rw [if_neg (by rw [hlen]; exact h3)]
    · rw [if_neg (by intro hc; exact h2 hc.2.1), if_neg (by intro hc; exact h2 hc.2)]
      rfl
  · rw [if_neg (by intro hc; exact h1 hc.1), if_neg (by intro hc; exact h1 hc.1)]
    rfl

/-- C5: for every spatial arity (including the failing ones outside 1..3),
ParallelNet.forward coincides with the specification-side pipeline
ParallelNet.forwardSpec, in which branch 1 receives the FCN continuous
composition (spatial tensors plus time) normalized with the full bounds and
branch 2 receives the concatenation of the spatial tensors only, normalized
with the scalar bounds lb[0] and ub[0] regardless of arity. -/
theorem parallel_forward_matches_spec (I : ActKind → ℚ → ℚ) (expF : ℚ → ℚ)
    (m : ParallelNet ℚ) (spatial : List (Tensor ℚ)) (time : Tensor ℚ) :
    ParallelNet.forward I expF m spatial time
      = ParallelNet.forwardSpec I expF m spatial time := by
  match spatial with
  | [] => rfl
  | [x] =>
      cases h : cat2 x time <;>
        simp [ParallelNet.forward, ParallelNet.forwardSpec, composeContinuous,
          catAll, catAllGo, h]
  | [x, y] =>
      cases h1 : cat3 x y time <;>
        cases h2 : cat2 x y <;>
          simp [ParallelNet.forward, ParallelNet.forwardSpec, composeContinuous,
            catAll, catAllGo, h1, h2]
  | [x, y, z] =>
      cases h1 : cat4 x y z time <;>
        cases h2 : cat3 x y z <;>
          simp [ParallelNet.forward, ParallelNet.forwardSpec, composeContinuous,
            catAll, catAllGo, h1, h2, ← cat3_eq_chain]
  | v :: w :: xx :: yy :: rest => rfl

theorem zip3_length {α β γ : Type} :
    ∀ (as : List α) (bs : List β) (cs : List γ),
      as.length = bs.length → bs.length = cs.length →
      (zip3 as bs cs).length = as.length := by
  intro as
  induction as with
  | nil => intro bs cs h1 h2; simp [zip3]
  | cons a as ih =>
      intro bs cs h1 h2
      cases bs with
      | nil => simp at h1
      | cons b bs =>
          cases cs with
          | nil => simp at h2
          | cons c cs =>
              simp only [zip3, List.length_cons]
              rw [ih bs cs (by simpa using h1) (by simpa using h2)]

theorem hfmLoop_eq_specLoop (sigmoid : ℚ → ℚ) (norm2 : List ℚ → ℚ) :
    ∀ (ts : List (List (List ℚ) × List ℚ × List ℚ)) (i n : ℕ) (h : Tensor ℚ),
      n = i + ts.length + 1 →
      hfmLoop sigmoid norm2 n i ts h = hfmSpecLoop sigmoid norm2 ts h := by
  intro ts
  induction ts with
  | nil => intro i n h hn; simp [hfmLoop, hfmSpecLoop]
  | cons t rest ih =>
      intro i n h hn
      rw [hfmLoop, hfmSpecLoop]
      cases haff : hfmAffine norm2 t h with
      | none => simp
      | some h2 =>
          simp only [Option.some_bind]
          cases rest with
          | nil =>
              have hc : ¬ i < n - 2 := by
                simp only [List.length_cons, List.length_nil] at hn
                omega
              rw [if_neg hc]
              simp [hfmLoop, List.isEmpty]
          | cons r rs =>
              have hc : i < n - 2 := by
                simp only [List.length_cons] at hn
                omega
              rw [if_pos hc]
              have hrest : hfmLoop sigmoid norm2 n (i + 1) (r :: rs)
                  (swishT sigmoid h2) = hfmSpecLoop sigmoid norm2 (r :: rs)
                  (swishT sigmoid h2) := by
                apply ih
                simp only [List.length_cons] at hn ⊢
                omega
              rw [hrest]
              simp [List.isEmpty]

/-- C8: NetHFM.forward standardizes the composed input via (H - mean)/std
and then implements the specification recursion hfmSpecLoop: every layer
applies H = g * (H @ (W / norm(W, dim 0))) + b, the swish-like activation
H * sigmoid(H) follows every layer except the final one (the loop condition
i < num_layers - 2 with num_layers counting nodes excludes exactly the last
weight triple), so the last affine transform is linear, and the result is
sliced per output name. -/
theorem nethfm_forward_last_layer_linear (sigmoid : ℚ → ℚ)
    (norm2 : List ℚ → ℚ) (mean std : List ℚ) (layers : List ℕ)
    (names : List String) (winit : ℕ → ℕ → ℕ → ℚ)
    (spatial : List (Tensor ℚ)) (time : Tensor ℚ) :
    NetHFM.forward sigmoid norm2 (mkNetHFM mean std layers names winit)
        spatial time
      = (composeContinuous spatial time).bind fun h0 =>
        (rowOp2 (fun a b => a - b) mean h0).bind fun h1 =>
        (rowOp2 (fun a b => a / b) std h1).bind fun h2 =>
        (hfmSpecLoop sigmoid norm2
            (zip3 (mkNetHFM mean std layers names winit).weights
              (mkNetHFM mean std layers names winit).biases
              (mkNetHFM mean std layers names winit).gammas) h2).bind fun hf =>
        some (buildDict names fun i => colSlice hf i) := by
  have hl : ∀ h2 : Tensor ℚ,
      hfmLoop sigmoid norm2 (mkNetHFM mean std layers names winit).num_layers 0
          (zip3 (mkNetHFM mean std layers names winit).weights
            (mkNetHFM mean std layers names winit).biases
            (mkNetHFM mean std layers names winit).gammas) h2
        = hfmSpecLoop sigmoid norm2
            (zip3 (mkNetHFM mean std layers names winit).weights
              (mkNetHFM mean std layers names winit).biases
              (mkNetHFM mean std layers names winit).gammas) h2 := by
    intro h2
    have hts : (zip3 (mkNetHFM mean std layers names winit).weights
        (mkNetHFM mean std layers names winit).biases
        (mkNetHFM mean std layers names winit).gammas).length
          = layers.length - 1 := by
      rw [zip3_length _ _ _ (by simp [mkNetHFM]) (by simp [mkNetHFM])]
      simp [mkNetHFM]
    cases layers with
    | nil =>
        have hz : (zip3 (mkNetHFM mean std ([] : List ℕ) names winit).weights
            (mkNetHFM mean std ([] : List ℕ) names winit).biases
            (mkNetHFM mean std ([] : List ℕ) names winit).gammas) = [] :=
          List.length_eq_zero.mp (by simpa using hts)
        rw [hz]
        simp [hfmLoop, hfmSpecLoop]
    | cons a as =>
        apply hfmLoop_eq_specLoop
        rw [hts]
        simp [mkNetHFM]
  unfold NetHFM.forward
  simp only [hl]
  rfl

theorem dictLookup_dictUpsert_ne {β : Type} (k : String) (v : β) (n : String)
    (h : n ≠ k) : ∀ d : List (String × β),
      dictLookup n (dictUpsert d k v) = dictLookup n d := by
  intro d
  unfold dictUpsert
  by_cases hk : hasKey d k
  · rw [if_pos hk]
    clear hk
    induction d with
    | nil => simp
    | cons p ds ih =>
        by_cases hp : p.1 = k
        · rw [List.map_cons, if_pos hp, dictLookup, dictLookup,
            if_neg (fun he => h he.symm), if_neg (fun he => h (hp ▸ he).symm), ih]
        · rw [List.map_cons, if_neg hp, dictLookup, dictLookup]
          by_cases hn : p.1 = n
          · rw [if_pos hn, if_pos hn]
          · rw [if_neg hn, if_neg hn, ih]
  · rw [if_neg hk]
    clear hk
    induction d with
    | nil =>
        have hkn : ¬ k = n := fun he => h he.symm
        simp only [List.nil_append, dictLookup, if_neg hkn]
    | cons p ds ih =>
        rw [List.cons_append, dictLookup, dictLookup]
        by_cases hn : p.1 = n
        · rw [if_pos hn, if_pos hn]
        · rw [if_neg hn, if_neg hn, ih]

theorem dictLookup_dictUpsert_self {β : Type} (d : List (String × β))
    (k : String) (v : β) : dictLookup k (dictUpsert d k v) = some v := by
  unfold dictUpsert
  by_cases hk : hasKey d k
  · rw [if_pos hk]
    induction d with
    | nil => simp [hasKey] at hk
    | cons p ds ih =>
        by_cases hp : p.1 = k
        · rw [List.map_cons, if_pos hp, dictLookup, if_pos rfl]
        · have hk2 : hasKey ds k := by
            obtain ⟨q, hq, hqk⟩ := hk
            rcases List.mem_cons.mp hq with he | he
            · exact absurd (he ▸ hqk) hp
            · exact ⟨q, he, hqk⟩
          rw [List.map_cons, if_neg hp, dictLookup, if_neg hp, ih hk2]
  · rw [if_neg hk]
    induction d with
    | nil => simp [dictLookup]
    | cons p ds ih =>
        have hp : ¬ p.1 = k := fun he => hk ⟨p, List.mem_cons_self p ds, he⟩
        have hk2 : ¬ hasKey ds k := fun ⟨q, hq, hqk⟩ =>
          hk ⟨q, List.mem_cons_of_mem p hq, hqk⟩
        rw [List.cons_append, dictLookup, if_neg hp, ih hk2]

theorem buildDictAux_dictLookup_notmem {β : Type} (f : ℕ → β) :
    ∀ (ns : List String) (d : List (String × β)) (i : ℕ) (n : String),
      n ∉ ns → dictLookup n (buildDictAux f d i ns) = dictLookup n d := by
  intro ns
  induction ns with
  | nil => intro d i n _; rfl
  | cons m ms ih =>
      intro d i n hn
      have hnm : n ≠ m := fun he => hn (he ▸ List.mem_cons_self m ms)
      have hnms : n ∉ ms := fun hc => hn (List.mem_cons_of_mem m hc)
      rw [buildDictAux, ih (dictUpsert d m (f i)) (i + 1) n hnms,
        dictLookup_dictUpsert_ne m (f i) n hnm]

theorem buildDictAux_dictLookup {β : Type} (f : ℕ → β) :
    ∀ (ns : List String) (d : List (String × β)) (i : ℕ) (n : String),
      n ∈ ns →
      dictLookup n (buildDictAux f d i ns) = some (f (i + lastOcc ns n)) := by
  intro ns
  induction ns with
  | nil => intro d i n hn; simp at hn
  | cons m ms ih =>
      intro d i n hn
      by_cases hms : n ∈ ms
      · rw [buildDictAux, ih (dictUpsert d m (f i)) (i + 1) n hms, lastOcc,
          if_pos hms]
        have : i + 1 + lastOcc ms n = i + (lastOcc ms n + 1) := by omega
        rw [this]
      · have hnm : n = m := by
          rcases List.mem_cons.mp hn with he | he
          · exact he
          · exact absurd he hms
        subst hnm
        rw [buildDictAux, buildDictAux_dictLookup_notmem f ms _ (i + 1) n hms,
          dictLookup_dictUpsert_self d n (f i), lastOcc, if_neg hms, Nat.add_zero]

theorem buildDict_dictLookup {β : Type} (names : List String) (f : ℕ → β)
    (n : String) (hn : n ∈ names) :
    dictLookup n (buildDict names f) = some (f (lastOcc names n)) := by
  rw [buildDict, buildDictAux_dictLookup f names [] 0 n hn, Nat.zero_add]

theorem dictLookup_mem {β : Type} (n : String) (v : β) :
    ∀ d : List (String × β), dictLookup n d = some v → (n, v) ∈ d := by
  intro d
  induction d with
  | nil => intro h; simp [dictLookup] at h
  | cons p ds ih =>
      intro h
      rw [dictLookup] at h
      by_cases hp : p.1 = n
      · rw [if_pos hp] at h
        injection h with h
        have he : (n, v) = p := by rw [← hp, ← h]
        rw [he]
        exact List.mem_cons_self p ds
      · rw [if_neg hp] at h
        exact List.mem_cons_of_mem p (ih h)

theorem length_dictUpsert {β : Type} (d : List (String × β)) (k : String)
    (v : β) : (dictUpsert d k v).length
      = if hasKey d k then d.length else d.length + 1 := by
  unfold dictUpsert
  by_cases hk : hasKey d k
  · rw [if_pos hk, if_pos hk, List.length_map]
  · rw [if_neg hk, if_neg hk, List.length_append, List.length_singleton]

theorem hasKey_dictUpsert_of {β : Type} (d : List (String × β)) (k n : String)
    (v : β) (h : hasKey d n) : hasKey (dictUpsert d k v) n := by
  obtain ⟨q, hq, hqn⟩ := h
  unfold dictUpsert
  by_cases hk : hasKey d k
  · rw [if_pos hk]
    by_cases hqk : q.1 = k
    · exact ⟨(k, v), List.mem_map.mpr ⟨q, hq, by rw [if_pos hqk]⟩,
        by rw [← hqn, hqk]⟩
    · exact ⟨q, List.mem_map.mpr ⟨q, hq, by rw [if_neg hqk]⟩, hqn⟩
  · rw [if_neg hk]
    exact ⟨q, List.mem_append_left _ hq, hqn⟩

theorem hasKey_dictUpsert_self {β : Type} (d : List (String × β)) (k : String)
    (v : β) : hasKey (dictUpsert d k v) k := by
  unfold dictUpsert
  by_cases hk : hasKey d k
  · rw [if_pos hk]
    obtain ⟨q, hq, hqk⟩ := hk
    exact ⟨(k, v), List.mem_map.mpr ⟨q, hq, by rw [if_pos hqk]⟩, rfl⟩
  · rw [if_neg hk]
    exact ⟨(k, v), List.mem_append_right _ (List.mem_singleton.mpr rfl), rfl⟩

theorem buildDictAux_length_le {β : Type} (f : ℕ → β) :
    ∀ (ns : List String) (d : List (String × β)) (i : ℕ),
      (buildDictAux f d i ns).length ≤ d.length + ns.length := by
  intro ns
  induction ns with
  | nil => intro d i; simp [buildDictAux]
  | cons m ms ih =>
      intro d i
      rw [buildDictAux]
      calc (buildDictAux f (dictUpsert d m (f i)) (i + 1) ms).length
          ≤ (dictUpsert d m (f i)).length + ms.length := ih _ _
        _ ≤ d.length + (m :: ms).length := by
            rw [length_dictUpsert]
            by_cases hm : hasKey d m
            · rw [if_pos hm]; simp
            · rw [if_neg hm]; simp; omega

theorem buildDictAux_length_lt_of_hasKey {β : Type} (f : ℕ → β) :
    ∀ (ns : List String) (d : List (String × β)) (i : ℕ) (k : String),
      k ∈ ns → hasKey d k →
      (buildDictAux f d i ns).length < d.length + ns.length := by
  intro ns
  induction ns with
  | nil => intro d i k hk _; simp at hk
  | cons m ms ih =>
      intro d i k hk hdk
      rw [buildDictAux]
      by_cases hm : hasKey d m
      · calc (buildDictAux f (dictUpsert d m (f i)) (i + 1) ms).length
            ≤ (dictUpsert d m (f i)).length + ms.length :=
              buildDictAux_length_le f ms _ _
          _ = d.length + ms.length := by rw [length_dictUpsert, if_pos hm]
          _ < d.length + (m :: ms).length := by simp
      · have hkm : k ≠ m := fun he => hm (he ▸ hdk)
        have hkms : k ∈ ms := by
          rcases List.mem_cons.mp hk with he | he
          · exact absurd he hkm
          · exact he
        calc (buildDictAux f (dictUpsert d m (f i)) (i + 1) ms).length
            < (dictUpsert d m (f i)).length + ms.length :=
              ih _ _ k hkms (hasKey_dictUpsert_of d m k (f i) hdk)
          _ = d.length + (m :: ms).length := by
              rw [length_dictUpsert, if_neg hm]
              simp
              omega

theorem buildDictAux_length_lt_of_dup {β : Type} (f : ℕ → β) :
    ∀ (ns : List String) (d : List (String × β)) (i : ℕ),
      ¬ ns.Nodup → (buildDictAux f d i ns).length < d.length + ns.length := by
  intro ns
  induction ns with
  | nil => intro d i hd; exact absurd List.nodup_nil hd
  | cons m ms ih =>
      intro d i hd
      rw [buildDictAux]
      by_cases hm : m ∈ ms
      · calc (buildDictAux f (dictUpsert d m (f i)) (i + 1) ms).length
            < (dictUpsert d m (f i)).length + ms.length :=
              buildDictAux_length_lt_of_hasKey f ms _ _ m hm
                (hasKey_dictUpsert_self d m (f i))
          _ ≤ d.length + (m :: ms).length := by
              rw [length_dictUpsert]
              by_cases hk : hasKey d m
              · rw [if_pos hk]; simp
              · rw [if_neg hk]; simp; omega
      · have hms : ¬ ms.Nodup := by
          intro hc
          exact hd (List.nodup_cons.mpr ⟨hm, hc⟩)
        calc (buildDictAux f (dictUpsert d m (f i)) (i + 1) ms).length
            < (dictUpsert d m (f i)).length + ms.length := ih _ _ hms
          _ ≤ d.length + (m :: ms).length := by
              rw [length_dictUpsert]
              by_cases hk : hasKey d m
              · rw [if_pos hk]; simp
              · rw [if_neg hk]; simp; omega

theorem buildDict_length_lt_of_dup {β : Type} (names : List String) (f : ℕ → β)
    (h : ¬ names.Nodup) : (buildDict names f).length < names.length := by
  have := buildDictAux_length_lt_of_dup f names [] 0 h
  simpa [buildDict] using this

theorem lastOcc_nodup_getD :
    ∀ (ns : List String), ns.Nodup → ∀ i, i < ns.length →
      lastOcc ns (ns.getD i noName) = i := by
  intro ns
  induction ns with
  | nil => intro _ i hi; simp at hi
  | cons m ms ih =>
      intro hnd i hi
      obtain ⟨hm, hms⟩ := List.nodup_cons.mp hnd
      cases i with
      | zero =>
          rw [List.getD_cons_zero, lastOcc, if_neg hm]
      | succ j =>
          have hj : j < ms.length := by simpa using hi
          rw [List.getD_cons_succ, lastOcc]
          have hmem : ms.getD j noName ∈ ms := by
            rw [List.getD_eq_getElem ms noName hj]
            exact List.getElem_mem hj
          rw [if_pos hmem, ih hms j hj]

theorem buildDict_dup_conclusion {β : Type} (names : List String) (g : ℕ → β)
    (h : ¬ names.Nodup) :
    (buildDict names g).length < names.length
    ∧ ∀ n ∈ names,
        dictLookup n (buildDict names g) = some (g (lastOcc names n)) :=
  ⟨buildDict_length_lt_of_dup names g h,
   fun n hn => buildDict_dictLookup names g n hn⟩

/-- C10: when output_names contains a repeated name, every forward pass
(FCN in either mode, NetHFM, ParallelNet) still returns a mapping, with
strictly fewer entries than len(output_names); each name is bound to the
value produced at its last occurrence index (for the slicing passes, the
slice of the last occurrence), the column of any earlier occurrence being
silently inaccessible. -/
theorem duplicate_output_names_collapse :
    (∀ (I : ActKind → ℚ → ℚ) (m : FCN ℚ) (spatial : List (Tensor ℚ))
        (time : Tensor ℚ) (d : List (String × Tensor ℚ)),
        FCN.forward I m spatial time = some d → ¬ m.output_names.Nodup →
        d.length < m.output_names.length
        ∧ ∃ g, d = buildDict m.output_names g
          ∧ ∀ n ∈ m.output_names,
              dictLookup n d = some (g (lastOcc m.output_names n)))
    ∧ (∀ (sigmoid : ℚ → ℚ) (norm2 : List ℚ → ℚ) (m : NetHFM ℚ)
        (spatial : List (Tensor ℚ)) (time : Tensor ℚ)
        (d : List (String × Tensor ℚ)),
        NetHFM.forward sigmoid norm2 m spatial time = some d →
        ¬ m.output_names.Nodup →
        d.length < m.output_names.length
        ∧ ∃ g, d = buildDict m.output_names g
          ∧ ∀ n ∈ m.output_names,
              dictLookup n d = some (g (lastOcc m.output_names n)))
    ∧ (∀ (I : ActKind → ℚ → ℚ) (expF : ℚ → ℚ) (m : ParallelNet ℚ)
        (spatial : List (Tensor ℚ)) (time : Tensor ℚ)
        (d : List (String × Tensor ℚ)),
        ParallelNet.forward I expF m spatial time = some d →
        ¬ m.output_names.Nodup →
        d.length < m.output_names.length
        ∧ ∃ g, d = buildDict m.output_names g
          ∧ ∀ n ∈ m.output_names,
              dictLookup n d = some (g (lastOcc m.output_names n))) := by
  refine ⟨?_, ?_, ?_⟩
  · intro I m spatial time d hfw hnd
    unfold FCN.forward at hfw
    by_cases hd : m.discrete = true
    · rw [if_pos hd] at hfw
      rcases Option.bind_eq_some.mp hfw with ⟨z0, h0, hfw2⟩
      rcases Option.bind_eq_some.mp hfw2 with ⟨z1, h1, hfw3⟩
      rcases Option.bind_eq_some.mp hfw3 with ⟨z2, h2, hfw4⟩
      injection hfw4 with hfw5
      subst hfw5
      exact ⟨(buildDict_dup_conclusion m.output_names _ hnd).1,
        fun _ => z2, rfl, (buildDict_dup_conclusion m.output_names _ hnd).2⟩
    · rw [if_neg hd] at hfw
      rcases Option.bind_eq_some.mp hfw with ⟨z0, h0, hfw2⟩
      rcases Option.bind_eq_some.mp hfw2 with ⟨z1, h1, hfw3⟩
      rcases Option.bind_eq_some.mp hfw3 with ⟨z2, h2, hfw4⟩
      injection hfw4 with hfw5
      subst hfw5
      exact ⟨(buildDict_dup_conclusion m.output_names _ hnd).1,
        fun i => colSlice z2 i, rfl,
        (buildDict_dup_conclusion m.output_names _ hnd).2⟩
  · intro sigmoid norm2 m spatial time d hfw hnd
    unfold NetHFM.forward at hfw
    rcases Option.bind_eq_some.mp hfw with ⟨h0, e0, hfw2⟩
    rcases Option.bind_eq_some.mp hfw2 with ⟨h1, e1, hfw3⟩
    rcases Option.bind_eq_some.mp hfw3 with ⟨h2, e2, hfw4⟩
    rcases Option.bind_eq_some.mp hfw4 with ⟨hf, e3, hfw5⟩
    injection hfw5 with hfw6
    subst hfw6
    exact ⟨(buildDict_dup_conclusion m.output_names _ hnd).1,
      fun i => colSlice hf i, rfl,
      (buildDict_dup_conclusion m.output_names _ hnd).2⟩
  · intro I expF m spatial time d hfw hnd
    unfold ParallelNet.forward at hfw
    rcases Option.bind_eq_some.mp hfw with ⟨p, e0, hfw2⟩
    rcases Option.bind_eq_some.mp hfw2 with ⟨z1, e1, hfw3⟩
    cases hlb : m.lb.head? with
    | none => rw [hlb] at hfw3; simp at hfw3
    | some l0 =>
        cases hub : m.ub.head? with
        | none => rw [hlb, hub] at hfw3; simp at hfw3
        | some u0 =>
            rw [hlb, hub] at hfw3
            simp only at hfw3
            rcases Option.bind_eq_some.mp hfw3 with ⟨o1, e2, hfw4⟩
            rcases Option.bind_eq_some.mp hfw4 with ⟨o2, e3, hfw5⟩
            rcases Option.bind_eq_some.mp hfw5 with ⟨z, e4, hfw6⟩
            injection hfw6 with hfw7
            subst hfw7
            exact ⟨(buildDict_dup_conclusion m.output_names _ hnd).1,
              fun i => colSlice z i, rfl,
              (buildDict_dup_conclusion m.output_names _ hnd).2⟩

/-- C10 (witness): the three forward passes with the duplicated name lists
["u", "u"], ["v", "v"], ["w", "w"] on concrete modules: each returns a
one-entry mapping. -/
theorem duplicate_output_names_collapse_witness :
    ((([("u", ([] : Tensor ℚ))]).length < (["u", "u"] : List String).length)
      ∧ ∃ g, [("u", ([] : Tensor ℚ))] = buildDict ["u", "u"] g
        ∧ ∀ n ∈ (["u", "u"] : List String),
            dictLookup n [("u", ([] : Tensor ℚ))]
              = some (g (lastOcc ["u", "u"] n)))
    ∧ ((([("v", ([] : Tensor ℚ))]).length < (["v", "v"] : List String).length)
      ∧ ∃ g, [("v", ([] : Tensor ℚ))] = buildDict ["v", "v"] g
        ∧ ∀ n ∈ (["v", "v"] : List String),
            dictLookup n [("v", ([] : Tensor ℚ))]
              = some (g (lastOcc ["v", "v"] n)))
    ∧ ((([("w", ([] : Tensor ℚ))]).length < (["w", "w"] : List String).length)
      ∧ ∃ g, [("w", ([] : Tensor ℚ))] = buildDict ["w", "w"] g
        ∧ ∀ n ∈ (["w", "w"] : List String),
            dictLookup n [("w", ([] : Tensor ℚ))]
              = some (g (lastOcc ["w", "w"] n))) :=
  ⟨duplicate_output_names_collapse.1 (fun _ q => q)
      ⟨[], [0], [1], ["u", "u"], true⟩ [[]] [] [("u", [])] rfl (by decide),
   duplicate_output_names_collapse.2.1 (fun q => q) (fun _ => 1)
      ⟨0, [], [], [], [], [], ["v", "v"]⟩ [[]] [] [("v", [])] rfl (by decide),
   duplicate_output_names_collapse.2.2 (fun _ q => q) (fun q => q)
      ⟨[], [], [0], [1], ["w", "w"]⟩ [[]] [] [("w", [])] rfl (by decide)⟩

theorem applyNet_append {α : Type} [Field α] (I : ActKind → α → α)
    (m : NetModule α) : ∀ (ms : List (NetModule α)) (t : Tensor α),
      applyNet I (ms ++ [m]) t = (applyNet I ms t).bind (applyModule I m) := by
  intro ms
  induction ms with
  | nil => intro t; simp [applyNet]
  | cons m2 ms ih =>
      intro t
      rw [List.cons_append, applyNet, applyNet]
      cases applyModule I m2 t with
      | none => simp
      | some t2 => simp [ih t2]

theorem applyModule_linear_rect {α : Type} [Field α] (I : ActKind → α → α)
    (a b : ℕ) (w : ℕ → ℕ → α) (bf : ℕ → α) (t t2 : Tensor α)
    (h : applyModule I (NetModule.linear a b w bf) t = some t2) :
    ∀ r ∈ t2, r.length = b := by
  simp only [applyModule] at h
  by_cases hc : ∀ r ∈ t, r.length = a
  · rw [if_pos hc] at h
    injection h with h
    subst h
    intro r hr
    obtain ⟨r0, _, hr0⟩ := List.mem_map.mp hr
    rw [← hr0, List.length_map, List.length_range]
  · rw [if_neg hc] at h
    exact absurd h (by simp)

theorem sequentialStack_split {α : Type} (sel : ActKind) (layers : List ℕ)
    (init : Init α) :
    sequentialStack sel layers init
      = (NetModule.linear (layers.getD 0 0) (layers.getD 1 0)
            (init 0).1 (init 0).2
          :: NetModule.act sel
          :: hiddenPart sel layers init (List.range' 1 (layers.length - 3)))
        ++ [NetModule.linear (layers.getD (layers.length - 2) 0)
              (layers.getD (layers.length - 1) 0)
              (init (layers.length - 3 + 1)).1
              (init (layers.length - 3 + 1)).2] := by
  simp [sequentialStack]

theorem mem_zipWith_append {α : Type} :
    ∀ (z1 z2 : Tensor α) (r : List α),
      r ∈ List.zipWith (· ++ ·) z1 z2 →
      ∃ r1 ∈ z1, ∃ r2 ∈ z2, r = r1 ++ r2 := by
  intro z1
  induction z1 with
  | nil => intro z2 r hr; simp at hr
  | cons a as ih =>
      intro z2 r hr
      cases z2 with
      | nil => simp at hr
      | cons b bs =>
          rw [List.zipWith_cons_cons] at hr
          rcases List.mem_cons.mp hr with he | he
          · exact ⟨a, List.mem_cons_self a as, b, List.mem_cons_self b bs, he⟩
          · obtain ⟨r1, h1, r2, h2, he2⟩ := ih bs r he
            exact ⟨r1, List.mem_cons_of_mem a h1, r2,
              List.mem_cons_of_mem b h2, he2⟩

theorem tmap_mem {α : Type} (f : α → α) (t : Tensor α) (r : List α) (x : α)
    (hr : r ∈ tmap f t) (hx : x ∈ r) : ∃ y, x = f y := by
  unfold tmap at hr
  obtain ⟨r0, _, hr0⟩ := List.mem_map.mp hr
  rw [← hr0] at hx
  obtain ⟨y, _, hy⟩ := List.mem_map.mp hx
  exact ⟨y, hy.symm⟩

/-- C9: in any successful ParallelNet forward pass over the reals with
torch.exp interpreted as the real exponential, every output name whose
column index falls at or beyond the width of branch 1's final layer is
bound to a slice of the exponentiated branch-2 output, and every element of
that slice is strictly positive. -/
theorem parallel_branch2_positive (I : ActKind → ℝ → ℝ)
    (layers1 layers2 : List ℕ) (lb ub : List ℝ) (names : List String)
    (actf1 actf2 : String) (init1 init2 : Init ℝ)
    (spatial : List (Tensor ℝ)) (time : Tensor ℝ)
    (d : List (String × Tensor ℝ)) (i : ℕ)
    (hfw : ParallelNet.forward I Real.exp
        (mkParallelNet layers1 layers2 lb ub names actf1 actf2 init1 init2)
        spatial time = some d)
    (hnd : names.Nodup) (hi : i < names.length)
    (hw : layers1.getD (layers1.length - 1) 0 ≤ i) :
    ∃ v, (names.getD i noName, v) ∈ d ∧ ∀ r ∈ v, ∀ x ∈ r, 0 < x := by
  unfold ParallelNet.forward mkParallelNet at hfw
  simp only at hfw
  rcases Option.bind_eq_some.mp hfw with ⟨p, e0, hfw2⟩
  rcases Option.bind_eq_some.mp hfw2 with ⟨z1, e1, hfw3⟩
  cases hlb : lb.head? with
  | none => rw [hlb] at hfw3; simp at hfw3
  | some l0 =>
      cases hub : ub.head? with
      | none => rw [hlb, hub] at hfw3; simp at hfw3
      | some u0 =>
          rw [hlb, hub] at hfw3
          simp only at hfw3
          rcases Option.bind_eq_some.mp hfw3 with ⟨o1, e2, hfw4⟩
          rcases Option.bind_eq_some.mp hfw4 with ⟨o2, e3, hfw5⟩
          rcases Option.bind_eq_some.mp hfw5 with ⟨z, e4, hfw6⟩
          injection hfw6 with hfw7
          subst hfw7
          -- branch 1's output is rectangular of the final layer width
          have ho1 : ∀ r ∈ o1, r.length = layers1.getD (layers1.length - 1) 0 := by
            rw [ParallelNet.initialize_net, sequentialStack_split] at e2
            rw [applyNet_append] at e2
            rcases Option.bind_eq_some.mp e2 with ⟨t1, _, ht2⟩
            exact applyModule_linear_rect I _ _ _ _ t1 o1 ht2
          -- the concatenated tensor
          have hz : z = List.zipWith (· ++ ·) o1 (tmap Real.exp o2) := by
            unfold cat2 at e4
            by_cases hlen : o1.length = (tmap Real.exp o2).length
            · rw [if_pos hlen] at e4
              injection e4 with e5
              exact e5.symm
            · rw [if_neg hlen] at e4
              exact absurd e4 (by simp)
          -- the name at index i is bound to the slice at i
          have hmemn : names.getD i noName ∈ names := by
            rw [List.getD_eq_getElem names noName hi]
            exact List.getElem_mem hi
          have hlook : dictLookup (names.getD i noName)
              (buildDict names fun j => colSlice z j)
                = some (colSlice z i) := by
            rw [buildDict_dictLookup names _ _ hmemn, lastOcc_nodup_getD names hnd i hi]
          refine ⟨colSlice z i, dictLookup_mem _ _ _ hlook, ?_⟩
          intro r hr x hx
          obtain ⟨rz, hrz, hrzr⟩ := List.mem_map.mp hr
          rw [← hrzr] at hx
          have hxd : x ∈ rz.drop i := List.mem_of_mem_take hx
          rw [hz] at hrz
          obtain ⟨r1, h1, r2, h2, he⟩ := mem_zipWith_append o1 _ rz hrz
          have hr1 : r1.length ≤ i := by rw [ho1 r1 h1]; exact hw
          have hieq : i = r1.length + (i - r1.length) := by omega
          rw [he, hieq, List.drop_append] at hxd
          have hx2 : x ∈ r2 := List.mem_of_mem_drop hxd
          obtain ⟨y, hy⟩ := tmap_mem Real.exp o2 r2 x h2 hx2
          rw [hy]
          exact Real.exp_pos y

/-- C9 (witness): a concrete successful forward pass of a ParallelNet over
the reals; the name at index 1 lies in the branch-2 column range and is
bound to an all-positive (here empty, zero-batch) slice. -/
theorem parallel_branch2_positive_witness :
    (ParallelNet.forward (fun _ (x : ℝ) => x) Real.exp
        (mkParallelNet [2, 1, 1] [1, 1, 1] [0, 0] [1, 1] ["a", "b"]
          ("tanh") ("tanh") czInitR czInitR) [([] : Tensor ℝ)] ([] : Tensor ℝ)
      = some [(("a"), ([] : Tensor ℝ)), (("b"), ([] : Tensor ℝ))])
    ∧ ∃ v, ((["a", "b"] : List String).getD 1 noName, v)
          ∈ [(("a"), ([] : Tensor ℝ)), (("b"), ([] : Tensor ℝ))]
        ∧ ∀ r ∈ v, ∀ x ∈ r, (0 : ℝ) < x :=
  ⟨rfl, parallel_branch2_positive (fun _ x => x) [2, 1, 1] [1, 1, 1] [0, 0]
      [1, 1] ["a", "b"] ("tanh") ("tanh") czInitR czInitR [[]] [] _ 1 rfl
      (by decide) (by decide) (by decide)⟩
